import Mathlib

/-!
Verification of the incremental Server-Sent-Events stream decoders of the
Eliza Cloud SDK (`src/lib/eliza.ts`).

The SDK contains two decoding loops, duplicated across several generator
functions:

* the line grammar (`chatStream`, `chatWithAgentStream`): the byte stream is
  decoded as UTF-8 text, accumulated in a string buffer, split on `"\n"`;
  the final segment is kept as the new buffer; every complete line that
  starts with `"data: "` and does not contain `"[DONE]"` is JSON-parsed and
  yielded (parse failures are silently skipped);

* the block grammar (`sendCharacterMessageStream`): same buffering, split on
  `"\n\n"`; each complete block is split into lines, `"event: "` lines set
  the event name (last one wins, default `"message"`), `"data: "` lines are
  concatenated into the payload, which is JSON-parsed and dispatched on the
  event name; after the read loop a final `done` event is always yielded.

Byte streams are modelled as `List (List Nat)` (a list of byte chunks),
decoded text as `List Char`.  `JSON.parse` is a parameter
`parse : List Char → Option Json` (`none` models a thrown exception caught
by the surrounding `try`).  The `TextDecoder` with `stream: true` is
modelled by `decodeCore`, which consumes the longest decodable prefix and
carries the trailing incomplete UTF-8 sequence to the next chunk.
-/

namespace Eliza

/-- Shorthand turning a string literal into the `List Char` our model uses. -/
def toL (s : String) : List Char := s.toList

/-- Model of JavaScript `String.prototype.startsWith`: `hasPref p s` is true
when `p` is an initial segment of `s`. -/
def hasPref : List Char → List Char → Bool
  | [], _ => true
  | _ :: _, [] => false
  | p :: ps, x :: xs => p = x && hasPref ps xs

/-- Model of JavaScript `String.prototype.includes`: substring occurrence. -/
def containsSub (p : List Char) : List Char → Bool
  | [] => hasPref p []
  | x :: xs => hasPref p (x :: xs) || containsSub p xs

/-- Whitespace test used by the model of `String.prototype.trim`. -/
def isWs (c : Char) : Bool := c = ' ' || c = '\t' || c = '\n' || c = '\r'

/-- Model of JavaScript `String.prototype.trim`. -/
def trim (s : List Char) : List Char :=
  ((s.dropWhile isWs).reverse.dropWhile isWs).reverse

/-- Minimal model of the JavaScript values produced by `JSON.parse`. -/
inductive Json where
  | null
  | bool (b : Bool)
  | num (n : Int)
  | str (s : List Char)
  | arr (elems : List Json)
  | obj (fields : List (List Char × Json))

/-- First binding of a key in an object literal. -/
def lookupField : List (List Char × Json) → List Char → Option Json
  | [], _ => none
  | (k, v) :: fs, key => if k = key then some v else lookupField fs key

/-- Model of JavaScript member access `v.k` on a `JSON.parse` result.
The outer `none` models the `TypeError` thrown by member access on `null`
(caught by the `try` around the dispatch); `some none` is `undefined`. -/
def jsGet : Json → List Char → Option (Option Json)
  | .null, _ => none
  | .obj fs, k => some (lookupField fs k)
  | _, _ => some none

/-- JavaScript truthiness of a `JSON.parse` result. -/
def jsTruthy : Json → Bool
  | .null => false
  | .bool b => b
  | .num n => n != 0
  | .str s => !s.isEmpty
  | .arr _ => true
  | .obj _ => true

/-- Model of `x || d` where `x` is a possibly-undefined member and `d` a
fallback value. -/
def jsOr (x : Option Json) (d : Json) : Json :=
  match x with
  | some v => if jsTruthy v then v else d
  | none => d

/-- Events yielded by `sendCharacterMessageStream` (block grammar). -/
inductive BEvent where
  | chunk (text messageId : Option Json)
  | message (m : Json)
  | thinking (m : Json)
  | error (e : Json)
  | done

/-- Per-line processing of the line grammar, from the loop body of
`chatStream` and `chatWithAgentStream`: a line starting with `"data: "`
and not containing `"[DONE]"` is parsed (after dropping the 6-character
marker) and yielded; parse failures and all other lines yield nothing. -/
def lineFrame (parse : List Char → Option Json) (line : List Char) :
    Option Json :=
  if hasPref (toL "data: ") line && !containsSub (toL "[DONE]") line then
    parse (line.drop 6)
  else none

/-- Body of the inner `for` loop of `sendCharacterMessageStream`:
`"event: "` lines overwrite the event name (sliced after 7 characters and
trimmed), `"data: "` lines append their suffix (after 6 characters) to the
payload, other lines leave the accumulator unchanged. -/
def headerStep (acc : List Char × List Char) (line : List Char) :
    List Char × List Char :=
  if hasPref (toL "event: ") line then (trim (line.drop 7), acc.2)
  else if hasPref (toL "data: ") line then (acc.1, acc.2 ++ line.drop 6)
  else acc

/-- The header fold of the block grammar, from the inner `for` loop of
`sendCharacterMessageStream`, starting from the default event name
`"message"` and an empty payload. -/
def blockHeader (lines : List (List Char)) : List Char × List Char :=
  lines.foldl headerStep (toL "message", [])

/-- The `switch (eventType)` dispatch of `sendCharacterMessageStream`,
applied to the parsed payload.  Member accesses go through `jsGet`, so a
`null` payload makes the whole frame fail (exception caught, no event). -/
def dispatch (parse : List Char → Option Json) (eventType dataStr : List Char) :
    Option BEvent :=
  match parse dataStr with
  | none => none
  | some data =>
    if eventType = toL "chunk" then
      match jsGet data (toL "chunk"), jsGet data (toL "messageId") with
      | some t, some m => some (.chunk t m)
      | _, _ => none
    else if eventType = toL "message" then
      match jsGet data (toL "type") with
      | none => none
      | some (some (Json.str s)) =>
        if s = toL "thinking" then some (.thinking data)
        else some (.message data)
      | some _ => some (.message data)
    else if eventType = toL "error" then
      match jsGet data (toL "message") with
      | none => none
      | some m1 =>
        match jsGet data (toL "error") with
        | none => none
        | some m2 =>
          some (.error (jsOr m1 (jsOr m2 (Json.str (toL "Unknown error")))))
    else if eventType = toL "done" then some .done
    else none

/-- Prepend a character to the first segment of a split result
(`(completed segments, trailing segment)`). -/
def consFirst (x : Char) : List (List Char) × List Char →
    List (List Char) × List Char
  | ([], last) => ([], x :: last)
  | (s :: ss, last) => ((x :: s) :: ss, last)

/-- Model of `buffer.split("\n")` followed by `buffer = lines.pop() || ""`:
returns the completed segments and the trailing segment. -/
def splitNlP : List Char → List (List Char) × List Char
  | [] => ([], [])
  | x :: xs =>
    if x = '\n' then ([] :: (splitNlP xs).1, (splitNlP xs).2)
    else consFirst x (splitNlP xs)

/-- Model of the full JavaScript `msg.split("\n")` (all segments). -/
def splitNlAll (s : List Char) : List (List Char) :=
  (splitNlP s).1 ++ [(splitNlP s).2]

/-- Model of `buffer.split("\n\n")` followed by `buffer = parts.pop() || ""`:
left-greedy split on the two-character delimiter, returning the completed
segments and the trailing segment. -/
def split2P : List Char → List (List Char) × List Char
  | [] => ([], [])
  | [x] => ([], [x])
  | x :: y :: xs =>
    if x = '\n' && y = '\n' then ([] :: (split2P xs).1, (split2P xs).2)
    else consFirst x (split2P (y :: xs))

/-- Per-block processing of the block grammar, from the outer `for` loop of
`sendCharacterMessageStream`: whitespace-only blocks are skipped, the block
is split into lines, the header fold extracts the event name and payload,
an empty payload is skipped, and otherwise the payload is parsed and
dispatched. -/
def blockFrame (parse : List Char → Option Json) (msg : List Char) :
    Option BEvent :=
  if (trim msg).isEmpty then none
  else
    let h := blockHeader (splitNlAll msg)
    if h.2.isEmpty then none
    else dispatch parse h.1 h.2

/-- Length class of the UTF-8 sequence led by a given byte (as consumed by
the incremental text-decoder model). -/
inductive ByteClass where
  | one | two | three | four

/-- Class of a lead byte: how many bytes the sequence it starts takes. -/
def classify (b : Nat) : ByteClass :=
  if b < 0xC0 then .one
  else if b < 0xE0 then .two
  else if b < 0xF0 then .three
  else .four

/-- Continuation-byte test for UTF-8. -/
def isCont (b : Nat) : Bool := 0x80 ≤ b && b < 0xC0

/-- Turn a code point into a `Char`, with U+FFFD for invalid values. -/
def charOf (n : Nat) : Char :=
  if n.isValidChar then Char.ofNat n else Char.ofNat 0xFFFD

/-- Decode one complete UTF-8 sequence (of the length given by `needed` of
its lead byte), with U+FFFD for malformed, overlong or out-of-range
sequences. -/
def decodeSeq : List Nat → Char
  | [b0] => if b0 < 0x80 then Char.ofNat b0 else Char.ofNat 0xFFFD
  | [b0, b1] =>
    if isCont b1 then
      let n := (b0 - 0xC0) * 64 + (b1 - 0x80)
      if 0x80 ≤ n then charOf n else Char.ofNat 0xFFFD
    else Char.ofNat 0xFFFD
  | [b0, b1, b2] =>
    if isCont b1 && isCont b2 then
      let n := (b0 - 0xE0) * 4096 + (b1 - 0x80) * 64 + (b2 - 0x80)
      if 0x800 ≤ n then charOf n else Char.ofNat 0xFFFD
    else Char.ofNat 0xFFFD
  | [b0, b1, b2, b3] =>
    if isCont b1 && isCont b2 && isCont b3 then
      let n := (b0 - 0xF0) * 262144 + (b1 - 0x80) * 4096 +
        (b2 - 0x80) * 64 + (b3 - 0x80)
      if 0x10000 ≤ n then charOf n else Char.ofNat 0xFFFD
    else Char.ofNat 0xFFFD
  | _ => Char.ofNat 0xFFFD

/-- Model of `TextDecoder.decode(bytes, { stream: true })`: decode the
longest prefix made of whole UTF-8 sequences, and return the decoded
characters together with the trailing incomplete sequence, which the
decoder carries over to the next chunk. -/
def decodeCore : List Nat → List Char × List Nat
  | [] => ([], [])
  | b :: rest =>
    match classify b, rest with
    | .one, r =>
      let p := decodeCore r
      (decodeSeq [b] :: p.1, p.2)
    | .two, [] => ([], [b])
    | .two, b1 :: r =>
      let p := decodeCore r
      (decodeSeq [b, b1] :: p.1, p.2)
    | .three, [] => ([], [b])
    | .three, [b1] => ([], [b, b1])
    | .three, b1 :: b2 :: r =>
      let p := decodeCore r
      (decodeSeq [b, b1, b2] :: p.1, p.2)
    | .four, [] => ([], [b])
    | .four, [b1] => ([], [b, b1])
    | .four, [b1, b2] => ([], [b, b1, b2])
    | .four, b1 :: b2 :: b3 :: r =>
      let p := decodeCore r
      (decodeSeq [b, b1, b2, b3] :: p.1, p.2)

/-- UTF-8 encoding of one character (used to build concrete byte streams
in the statements below). -/
def utf8Char (c : Char) : List Nat :=
  let n := c.toNat
  if n < 0x80 then [n]
  else if n < 0x800 then [0xC0 + n / 64, 0x80 + n % 64]
  else if n < 0x10000 then
    [0xE0 + n / 4096, 0x80 + n / 64 % 64, 0x80 + n % 64]
  else
    [0xF0 + n / 262144, 0x80 + n / 4096 % 64, 0x80 + n / 64 % 64,
      0x80 + n % 64]

/-- UTF-8 encoding of a character list. -/
def utf8Bytes (cs : List Char) : List Nat := (cs.map utf8Char).flatten

/-- UTF-8 encoding of a string literal, for concrete byte streams. -/
def enc (s : String) : List Nat := utf8Bytes s.toList

/-- State of one decoding loop: the pending bytes held by the incremental
text decoder and the string buffer of unprocessed text. -/
structure DecState where
  pending : List Nat
  buffer : List Char

/-- One iteration of a decoding loop on one received chunk: decode the
bytes (with carry-over), append to the buffer, split on the delimiter,
keep the trailing segment as the new buffer and map the frame processor
over the completed segments. -/
def runStep {E : Type} (split : List Char → List (List Char) × List Char)
    (frame : List Char → Option E) (σ : DecState) (chunk : List Nat) :
    List E × DecState :=
  let d := decodeCore (σ.pending ++ chunk)
  let p := split (σ.buffer ++ d.1)
  (p.1.filterMap frame, ⟨d.2, p.2⟩)

/-- The whole read loop: iterate `runStep` over the received chunks,
concatenating the yielded events.  At end-of-stream the leftover state is
discarded. -/
def runDec {E : Type} (split : List Char → List (List Char) × List Char)
    (frame : List Char → Option E) :
    DecState → List (List Nat) → List E × DecState
  | σ, [] => ([], σ)
  | σ, c :: cs =>
    let s := runStep split frame σ c
    let r := runDec split frame s.2 cs
    (s.1 ++ r.1, r.2)

/-- The streaming chat decoder `chatStream` (line grammar): events yielded
for a given sequence of body chunks. -/
def chatStream (parse : List Char → Option Json) (chunks : List (List Nat)) :
    List Json :=
  (runDec splitNlP (lineFrame parse) ⟨[], []⟩ chunks).1

/-- The agent streaming decoder `chatWithAgentStream`; its decoding loop is
byte-for-byte identical to the one of `chatStream`. -/
def chatWithAgentStream (parse : List Char → Option Json)
    (chunks : List (List Nat)) : List Json :=
  (runDec splitNlP (lineFrame parse) ⟨[], []⟩ chunks).1

/-- The character streaming decoder `sendCharacterMessageStream` (block
grammar): the events of the read loop followed by the unconditional final
`yield (type done)` after the loop. -/
def sendCharacterMessageStream (parse : List Char → Option Json)
    (chunks : List (List Nat)) : List BEvent :=
  (runDec split2P (blockFrame parse) ⟨[], []⟩ chunks).1 ++ [BEvent.done]

/-- Frame-level view of the line grammar: events of a list of complete
lines. -/
def lineEvents (parse : List Char → Option Json) (lines : List (List Char)) :
    List Json :=
  lines.filterMap (lineFrame parse)

/-- Frame-level view of the block grammar: events of a list of complete
blocks. -/
def blockEvents (parse : List Char → Option Json)
    (blocks : List (List Char)) : List BEvent :=
  blocks.filterMap (blockFrame parse)

/-- Concrete JSON parse function used to evaluate the decoders on the
concrete inputs of the witnesses and counterexamples below. -/
def jparse : List Char → Option Json := fun s =>
  if s = toL "1" then some (.num 1)
  else if s = toL "2" then some (.num 2)
  else if s = toL "\"[DONE]\"" then some (.str (toL "[DONE]"))
  else none

/-- Event name contributed by one line of a block, according to the
specification wording: a line starting with `"event: "` sets the name. -/
def evSel (line : List Char) : Option (List Char) :=
  if hasPref (toL "event: ") line then some (trim (line.drop 7)) else none

/-- Payload fragment contributed by one line of a block, according to the
specification wording: a line starting with `"data: "` contributes its
suffix. -/
def dataSel (line : List Char) : Option (List Char) :=
  if hasPref (toL "data: ") line then some (line.drop 6) else none

/-- Event name of a block as the specification words it: taken from the
last line starting with `"event: "`, defaulting to `"message"` when no
such line is present. -/
def blockEventName (msg : List Char) : List Char :=
  ((splitNlAll msg).filterMap evSel).getLastD (toL "message")

/-- Payload of a block as the specification words it: the suffixes of all
lines starting with `"data: "`, concatenated in order. -/
def blockDataOf (msg : List Char) : List Char :=
  ((splitNlAll msg).filterMap dataSel).flatten

/-- Modelled from the spec wording of the block-frame mapping (claim C8):
the event name comes from the last `"event: "` line (default
`"message"`), all `"data: "` suffixes are concatenated in order, the
payload is parsed as JSON only after that concatenation, and the parsed
payload is dispatched on the event name; a frame with an empty payload
yields nothing. -/
def blockFrameSpec (parse : List Char → Option Json) (msg : List Char) :
    Option BEvent :=
  if (blockDataOf msg).isEmpty then none
  else dispatch parse (blockEventName msg) (blockDataOf msg)

/-- Incrementality of the text-decoder model: decoding `s ++ t` decodes `s`,
then decodes the carried-over trailing bytes of `s` together with `t`. -/
theorem decodeCore_append (s : List Nat) : ∀ t : List Nat,
    decodeCore (s ++ t) =
      ((decodeCore s).1 ++ (decodeCore ((decodeCore s).2 ++ t)).1,
        (decodeCore ((decodeCore s).2 ++ t)).2) := by
  induction s using decodeCore.induct with
  | case1 => intro t; simp [decodeCore]
  | case2 b r h ih => intro t; simp [decodeCore, h, ih t]
  | case3 b h => intro t; simp [decodeCore, h]
  | case4 b b1 r h ih => intro t; simp [decodeCore, h, ih t]
  | case5 b h => intro t; simp [decodeCore, h]
  | case6 b b1 h => intro t; simp [decodeCore, h]
  | case7 b b1 b2 r h ih => intro t; simp [decodeCore, h, ih t]
  | case8 b h => intro t; simp [decodeCore, h]
  | case9 b b1 h => intro t; simp [decodeCore, h]
  | case10 b b1 b2 h => intro t; simp [decodeCore, h]
  | case11 b b1 b2 b3 r h ih => intro t; simp [decodeCore, h, ih t]

/-- The UTF-8 encoding of one character, followed by anything, decodes to
that character followed by the decode of the remainder. -/
theorem decodeCore_utf8Char (c : Char) (rest : List Nat) :
    decodeCore (utf8Char c ++ rest) =
      (c :: (decodeCore rest).1, (decodeCore rest).2) := by
  have hv : Nat.isValidChar c.toNat := c.valid
  have hofn : Char.ofNat c.toNat = c := Char.ofNat_toNat c
  set n := c.toNat with hn
  clear_value n
  have hlt : n < 0x110000 := by rcases hv with h | ⟨ha, hb⟩ <;> omega
  by_cases h1 : n < 0x80
  · have he : utf8Char c = [n] := by
      unfold utf8Char; rw [← hn, if_pos h1]
    have hcl : classify n = .one := by
      unfold classify; rw [if_pos (by omega)]
    rw [he, List.cons_append, List.nil_append]
    simp only [decodeCore, hcl]
    have hs : decodeSeq [n] = c := by
      simp only [decodeSeq]
      rw [if_pos h1, hofn]
    rw [hs]
  · by_cases h2 : n < 0x800
    · have he : utf8Char c = [0xC0 + n / 64, 0x80 + n % 64] := by
        unfold utf8Char; rw [← hn, if_neg h1, if_pos h2]
      have hcl : classify (0xC0 + n / 64) = .two := by
        unfold classify; rw [if_neg (by omega), if_pos (by omega)]
      rw [he]
      simp only [List.cons_append, List.nil_append]
      simp only [decodeCore, hcl]
      have hcont : isCont (0x80 + n % 64) = true := by
        unfold isCont
        simp only [Bool.and_eq_true, decide_eq_true_eq]
        omega
      have hs : decodeSeq [0xC0 + n / 64, 0x80 + n % 64] = c := by
        simp only [decodeSeq, hcont, if_true]
        rw [show (0xC0 + n / 64 - 0xC0) * 64 + (0x80 + n % 64 - 0x80) = n
          from by omega]
        rw [if_pos (by omega)]
        unfold charOf
        rw [if_pos hv, hofn]
      rw [hs]
    · by_cases h3 : n < 0x10000
      · have he : utf8Char c =
            [0xE0 + n / 4096, 0x80 + n / 64 % 64, 0x80 + n % 64] := by
          unfold utf8Char; rw [← hn, if_neg h1, if_neg h2, if_pos h3]
        have hcl : classify (0xE0 + n / 4096) = .three := by
          unfold classify
          rw [if_neg (by omega), if_neg (by omega), if_pos (by omega)]
        rw [he]
        simp only [List.cons_append, List.nil_append]
        simp only [decodeCore, hcl]
        have hcont : (isCont (0x80 + n / 64 % 64) &&
            isCont (0x80 + n % 64)) = true := by
          unfold isCont
          simp only [Bool.and_eq_true, decide_eq_true_eq]
          omega
        have hs : decodeSeq
            [0xE0 + n / 4096, 0x80 + n / 64 % 64, 0x80 + n % 64] = c := by
          simp only [decodeSeq, hcont, if_true]
          rw [show (0xE0 + n / 4096 - 0xE0) * 4096 +
              (0x80 + n / 64 % 64 - 0x80) * 64 + (0x80 + n % 64 - 0x80) = n
            from by omega]
          rw [if_pos (by omega)]
          unfold charOf
          rw [if_pos hv, hofn]
        rw [hs]
      · have he : utf8Char c = [0xF0 + n / 262144, 0x80 + n / 4096 % 64,
            0x80 + n / 64 % 64, 0x80 + n % 64] := by
          unfold utf8Char; rw [← hn, if_neg h1, if_neg h2, if_neg h3]
        have hcl : classify (0xF0 + n / 262144) = .four := by
          unfold classify
          rw [if_neg (by omega), if_neg (by omega), if_neg (by omega)]
        rw [he]
        simp only [List.cons_append, List.nil_append]
        simp only [decodeCore, hcl]
        have hcont : (isCont (0x80 + n / 4096 % 64) &&
            isCont (0x80 + n / 64 % 64) && isCont (0x80 + n % 64)) =
            true := by
          unfold isCont
          simp only [Bool.and_eq_true, decide_eq_true_eq]
          omega
        have hs : decodeSeq [0xF0 + n / 262144, 0x80 + n / 4096 % 64,
            0x80 + n / 64 % 64, 0x80 + n % 64] = c := by
          simp only [decodeSeq, hcont, if_true]
          rw [show (0xF0 + n / 262144 - 0xF0) * 262144 +
              (0x80 + n / 4096 % 64 - 0x80) * 4096 +
              (0x80 + n / 64 % 64 - 0x80) * 64 + (0x80 + n % 64 - 0x80) = n
            from by
              have hd1 : n / 4096 / 64 = n / 262144 := by
                rw [Nat.div_div_eq_div_mul]
              have hd2 : n / 64 / 64 = n / 4096 := by
                rw [Nat.div_div_eq_div_mul]
              omega]
          rw [if_pos (show (0x10000 : Nat) ≤ n by omega)]
          unfold charOf
          rw [if_pos hv, hofn]
        rw [hs]

/-- The incremental text decoder inverts UTF-8 encoding: an encoded
character list decodes to exactly those characters with nothing pending,
validating the decoder model against the encoder used for the concrete
byte inputs below. -/
theorem decodeCore_utf8Bytes (cs : List Char) :
    decodeCore (utf8Bytes cs) = (cs, []) := by
  induction cs with
  | nil => rfl
  | cons c cs ih =>
    unfold utf8Bytes
    rw [List.map_cons, List.flatten_cons, decodeCore_utf8Char c,
      show (cs.map utf8Char).flatten = utf8Bytes cs from rfl, ih]

/-- Incrementality of the single-newline splitter with carried-over trailing
segment. -/
theorem splitNlP_append (s : List Char) : ∀ t : List Char,
    splitNlP (s ++ t) =
      ((splitNlP s).1 ++ (splitNlP ((splitNlP s).2 ++ t)).1,
        (splitNlP ((splitNlP s).2 ++ t)).2) := by
  have h1 : ∀ u : List Char,
      splitNlP ('\n' :: u) = ([] :: (splitNlP u).1, (splitNlP u).2) := by
    intro u; simp [splitNlP]
  induction s with
  | nil => intro t; simp [splitNlP]
  | cons x xs ih =>
    intro t
    by_cases hx : x = '\n'
    · subst hx
      rw [List.cons_append, h1, h1, ih t]
      simp
    · have h2 : ∀ u : List Char,
          splitNlP (x :: u) = consFirst x (splitNlP u) := by
        intro u; simp [splitNlP, hx]
      rw [List.cons_append, h2, h2]
      rcases hA : splitNlP xs with ⟨A1, A2⟩
      rcases A1 with _ | ⟨s1, ss⟩
      · simp only [ih t, hA, List.nil_append, consFirst, Prod.mk.eta]
        rw [List.cons_append, h2]
        rfl
      · simp [ih t, hA, consFirst]

/-- A string with no completed segment is its own trailing segment
(double-newline splitter). -/
theorem split2P_nil_fst (s : List Char) :
    (split2P s).1 = [] → (split2P s).2 = s := by
  induction s using split2P.induct with
  | case1 => intro _; rfl
  | case2 x => intro _; rfl
  | case3 x y xs h ih =>
    simp only [split2P, if_pos h]
    intro hc; cases hc
  | case4 x y xs h ih =>
    simp only [split2P, if_neg h]
    rcases hA : split2P (y :: xs) with ⟨A1, A2⟩
    rcases A1 with _ | ⟨s1, ss⟩
    · intro _
      simp only [consFirst]
      have := ih (by rw [hA])
      rw [hA] at this
      simp only at this
      rw [this]
    · intro hc; cases hc

/-- Incrementality of the double-newline splitter with carried-over trailing
segment. -/
theorem split2P_append (s : List Char) : ∀ t : List Char,
    split2P (s ++ t) =
      ((split2P s).1 ++ (split2P ((split2P s).2 ++ t)).1,
        (split2P ((split2P s).2 ++ t)).2) := by
  have hd : ∀ u : List Char, split2P ('\n' :: '\n' :: u) =
      ([] :: (split2P u).1, (split2P u).2) := by
    intro u; simp [split2P]
  induction s using split2P.induct with
  | case1 => intro t; simp [split2P]
  | case2 x => intro t; simp [split2P]
  | case3 x y xs h ih =>
    intro t
    simp only [Bool.and_eq_true, decide_eq_true_eq] at h
    obtain ⟨hx, hy⟩ := h
    subst hx; subst hy
    rw [List.cons_append, List.cons_append, hd, hd, ih t]
    simp
  | case4 x y xs h ih =>
    intro t
    have hs : ∀ u : List Char, split2P (x :: y :: u) =
        consFirst x (split2P (y :: u)) := by
      intro u
      rw [split2P, if_neg h]
    rw [List.cons_append, List.cons_append, hs, hs]
    rcases hA : split2P (y :: xs) with ⟨A1, A2⟩
    rcases A1 with _ | ⟨s1, ss⟩
    · have hA2 : A2 = y :: xs := by
        have h0 := split2P_nil_fst (y :: xs)
        rw [hA] at h0
        simpa using h0 rfl
      simp only [ih t, hA, List.nil_append, consFirst]
      rw [hA2]
      simp only [hs, Prod.mk.eta, List.cons_append]
      rfl
    · rw [← List.cons_append y xs t, ih t, hA]
      simp [consFirst]

/-- Incrementality of one loop iteration: feeding `a ++ b` as one chunk is
feeding `a` and then `b`, with the events concatenated.  `H` is the split
incrementality hypothesis, discharged by `splitNlP_append` and
`split2P_append`. -/
theorem runStep_append {E : Type}
    (split : List Char → List (List Char) × List Char)
    (frame : List Char → Option E)
    (H : ∀ s t, split (s ++ t) =
      ((split s).1 ++ (split ((split s).2 ++ t)).1,
        (split ((split s).2 ++ t)).2))
    (σ : DecState) (a b : List Nat) :
    runStep split frame σ (a ++ b) =
      ((runStep split frame σ a).1 ++
          (runStep split frame (runStep split frame σ a).2 b).1,
        (runStep split frame (runStep split frame σ a).2 b).2) := by
  simp only [runStep]
  rw [← List.append_assoc σ.pending a b, decodeCore_append (σ.pending ++ a) b]
  simp only
  rw [← List.append_assoc σ.buffer _ _,
    H (σ.buffer ++ (decodeCore (σ.pending ++ a)).1) _]
  simp [List.filterMap_append]

/-- The events of the whole read loop on a non-empty chunk list are the
events of one iteration on the concatenation of the chunks. -/
theorem runDec_eq_step {E : Type}
    (split : List Char → List (List Char) × List Char)
    (frame : List Char → Option E)
    (H : ∀ s t, split (s ++ t) =
      ((split s).1 ++ (split ((split s).2 ++ t)).1,
        (split ((split s).2 ++ t)).2)) :
    ∀ (cs : List (List Nat)) (σ : DecState) (c : List Nat),
      (runDec split frame σ (c :: cs)).1 =
        (runStep split frame σ (c ++ cs.flatten)).1 := by
  intro cs
  induction cs with
  | nil => intro σ c; simp [runDec]
  | cons c2 cs ih =>
    intro σ c
    have h0 : (runDec split frame σ (c :: c2 :: cs)).1 =
        (runStep split frame σ c).1 ++
          (runDec split frame (runStep split frame σ c).2 (c2 :: cs)).1 := rfl
    rw [h0, ih, List.flatten_cons,
      runStep_append split frame H σ c (c2 ++ cs.flatten)]

/-- The line-grammar decoder is a function of the concatenated bytes: it
maps `lineFrame` over the completed lines of the decoded text. -/
theorem chatStream_flatten (parse : List Char → Option Json)
    (chunks : List (List Nat)) :
    chatStream parse chunks =
      lineEvents parse (splitNlP (decodeCore chunks.flatten).1).1 := by
  cases chunks with
  | nil => rfl
  | cons c cs =>
    unfold chatStream
    rw [runDec_eq_step splitNlP (lineFrame parse) splitNlP_append cs ⟨[], []⟩ c]
    simp [runStep, lineEvents]

/-- The block-grammar decoder is a function of the concatenated bytes: it
maps `blockFrame` over the completed blocks of the decoded text and appends
the final synthetic `done`. -/
theorem sendCharacterMessageStream_flatten (parse : List Char → Option Json)
    (chunks : List (List Nat)) :
    sendCharacterMessageStream parse chunks =
      blockEvents parse (split2P (decodeCore chunks.flatten).1).1 ++
        [BEvent.done] := by
  cases chunks with
  | nil => rfl
  | cons c cs =>
    unfold sendCharacterMessageStream
    rw [runDec_eq_step split2P (blockFrame parse) split2P_append cs ⟨[], []⟩ c]
    simp [runStep, blockEvents]

/-- C1 — Chunking invariance: for every byte sequence and every way of
splitting it into successive chunks, each decoder emits exactly the event
sequence it emits when the same bytes arrive as one single chunk; in
particular a valid frame split across chunk boundaries (even inside a
multi-byte character) yields the same single event as the frame delivered
whole. -/
theorem C1_chunking_invariance (parseL parseB : List Char → Option Json)
    (chunks : List (List Nat)) :
    chatStream parseL chunks = chatStream parseL [chunks.flatten] ∧
    chatWithAgentStream parseL chunks =
      chatWithAgentStream parseL [chunks.flatten] ∧
    sendCharacterMessageStream parseB chunks =
      sendCharacterMessageStream parseB [chunks.flatten] := by
  refine ⟨?_, ?_, ?_⟩
  · rw [chatStream_flatten, chatStream_flatten]
    simp
  · show chatStream parseL chunks = chatStream parseL [chunks.flatten]
    rw [chatStream_flatten, chatStream_flatten]
    simp
  · rw [sendCharacterMessageStream_flatten, sendCharacterMessageStream_flatten]
    simp

/-- A list always starts with itself followed by anything. -/
theorem hasPref_self_append (p l : List Char) : hasPref p (p ++ l) = true := by
  induction p with
  | nil => simp [hasPref]
  | cons c cs ih => simp [hasPref, ih]

/-- A line that starts with `"event: "` does not start with `"data: "`. -/
theorem ev_not_data (l : List Char) (h : hasPref (toL "event: ") l = true) :
    hasPref (toL "data: ") l = false := by
  have he : toL "event: " = 'e' :: toL "vent: " := rfl
  have hd : toL "data: " = 'd' :: toL "ata: " := rfl
  rw [he] at h
  rw [hd]
  cases l with
  | nil => simp [hasPref] at h
  | cons c cs =>
    simp only [hasPref, Bool.and_eq_true, decide_eq_true_eq] at h
    obtain ⟨h1, _⟩ := h
    subst h1
    simp [hasPref]

/-- A line that starts with `"data: "` contains the letter d. -/
theorem data_line_mem (l : List Char) (h : hasPref (toL "data: ") l = true) :
    'd' ∈ l := by
  have hd : toL "data: " = 'd' :: toL "ata: " := rfl
  rw [hd] at h
  cases l with
  | nil => simp [hasPref] at h
  | cons c cs =>
    simp only [hasPref, Bool.and_eq_true, decide_eq_true_eq] at h
    obtain ⟨h1, _⟩ := h
    subst h1
    exact List.mem_cons_self _ _

/-- A string whose trim is empty consists of whitespace only. -/
theorem trim_nil_ws (s : List Char) (h : trim s = []) :
    ∀ c ∈ s, isWs c = true := by
  unfold trim at h
  have h1 : (s.dropWhile isWs).reverse.dropWhile isWs = [] := by
    have h2 := congrArg List.reverse h
    simpa using h2
  have h3 : ∀ c ∈ s.dropWhile isWs, isWs c = true := by
    intro c hc
    exact List.dropWhile_eq_nil_iff.mp h1 c (by simpa using hc)
  intro c hc
  rw [← List.takeWhile_append_dropWhile (p := isWs) (l := s)] at hc
  rcases List.mem_append.mp hc with h4 | h4
  · exact List.mem_takeWhile_imp h4
  · exact h3 c h4

/-- Characters of any segment produced by the newline split are characters
of the split string. -/
theorem splitNlP_mem (s : List Char) :
    ∀ seg, (seg ∈ (splitNlP s).1 ∨ seg = (splitNlP s).2) →
      ∀ c ∈ seg, c ∈ s := by
  induction s with
  | nil =>
    intro seg hseg c hc
    rcases hseg with h | h
    · simp [splitNlP] at h
    · subst h; simp [splitNlP] at hc
  | cons x xs ih =>
    intro seg hseg c hc
    by_cases hx : x = '\n'
    · subst hx
      rw [show splitNlP ('\n' :: xs) =
          ([] :: (splitNlP xs).1, (splitNlP xs).2) from by
        simp [splitNlP]] at hseg
      rcases hseg with h | h
      · rcases List.mem_cons.mp h with h0 | h0
        · subst h0; simp at hc
        · exact List.mem_cons_of_mem _ (ih seg (Or.inl h0) c hc)
      · exact List.mem_cons_of_mem _ (ih seg (Or.inr h) c hc)
    · rw [show splitNlP (x :: xs) = consFirst x (splitNlP xs) from by
        simp [splitNlP, hx]] at hseg
      rcases hA : splitNlP xs with ⟨A1, A2⟩
      rw [hA] at hseg
      rcases A1 with _ | ⟨s1, ss⟩
      · simp only [consFirst] at hseg
        rcases hseg with h | h
        · simp at h
        · subst h
          rcases List.mem_cons.mp hc with h0 | h0
          · subst h0; exact List.mem_cons_self _ _
          · refine List.mem_cons_of_mem _ (ih A2 (Or.inr ?_) c h0)
            rw [hA]
      · simp only [consFirst] at hseg
        rcases hseg with h | h
        · rcases List.mem_cons.mp h with h0 | h0
          · subst h0
            rcases List.mem_cons.mp hc with h1 | h1
            · subst h1; exact List.mem_cons_self _ _
            · refine List.mem_cons_of_mem _ (ih s1 (Or.inl ?_) c h1)
              rw [hA]; exact List.mem_cons_self _ _
          · refine List.mem_cons_of_mem _ (ih seg (Or.inl ?_) c hc)
            rw [hA]; exact List.mem_cons_of_mem _ h0
        · subst h
          refine List.mem_cons_of_mem _ (ih seg (Or.inr ?_) c hc)
          rw [hA]

/-- A whitespace-only block contributes no payload. -/
theorem trim_nil_blockData (msg : List Char) (h : trim msg = []) :
    blockDataOf msg = [] := by
  unfold blockDataOf
  have h1 : (splitNlAll msg).filterMap dataSel = [] := by
    rw [List.filterMap_eq_nil_iff]
    intro l hl
    unfold dataSel
    by_cases hp : hasPref (toL "data: ") l = true
    · exfalso
      have hdm : 'd' ∈ l := data_line_mem l hp
      have hmem : 'd' ∈ msg := by
        unfold splitNlAll at hl
        rcases List.mem_append.mp hl with h2 | h2
        · exact splitNlP_mem msg l (Or.inl h2) 'd' hdm
        · exact splitNlP_mem msg l (Or.inr (by simpa using h2)) 'd' hdm
      have := trim_nil_ws msg h 'd' hmem
      simp [isWs] at this
    · simp [hp]
  rw [h1]
  rfl

/-- The header fold computes, from any accumulator, the last event name
(with the accumulator as default) and the in-order concatenation of the
data suffixes. -/
theorem headerStep_foldl (ls : List (List Char)) :
    ∀ acc : List Char × List Char,
      ls.foldl headerStep acc =
        ((ls.filterMap evSel).getLastD acc.1,
          acc.2 ++ (ls.filterMap dataSel).flatten) := by
  induction ls with
  | nil => intro acc; simp
  | cons l ls ih =>
    intro acc
    rw [List.foldl_cons, ih]
    by_cases hev : hasPref (toL "event: ") l = true
    · have hnd : hasPref (toL "data: ") l = false := ev_not_data l hev
      have hev2 : evSel l = some (trim (l.drop 7)) := by simp [evSel, hev]
      have hnd2 : dataSel l = none := by simp [dataSel, hnd]
      have hstep : headerStep acc l = (trim (l.drop 7), acc.2) := by
        simp [headerStep, hev]
      rw [hstep]
      simp only [List.filterMap_cons, hev2, hnd2, List.getLastD_cons]
    · by_cases hda : hasPref (toL "data: ") l = true
      · have hev2 : evSel l = none := by simp [evSel, hev]
        have hda2 : dataSel l = some (l.drop 6) := by simp [dataSel, hda]
        have hstep : headerStep acc l = (acc.1, acc.2 ++ l.drop 6) := by
          simp [headerStep, hev, hda]
        rw [hstep]
        simp [List.filterMap_cons, hev2, hda2]
      · have hev2 : evSel l = none := by simp [evSel, hev]
        have hda2 : dataSel l = none := by simp [dataSel, hda]
        have hstep : headerStep acc l = acc := by
          simp [headerStep, hev, hda]
        rw [hstep]
        simp [List.filterMap_cons, hev2, hda2]

/-- The block-header fold equals its specification reading: last event
line wins (default message) and data suffixes concatenate in order. -/
theorem blockHeader_eq (ls : List (List Char)) :
    blockHeader ls =
      ((ls.filterMap evSel).getLastD (toL "message"),
        (ls.filterMap dataSel).flatten) := by
  unfold blockHeader
  rw [headerStep_foldl]
  simp

/-- The source block-frame mapping coincides with its specification
reading. -/
theorem blockFrame_eq_spec (parse : List Char → Option Json)
    (msg : List Char) : blockFrame parse msg = blockFrameSpec parse msg := by
  unfold blockFrame blockFrameSpec
  by_cases ht : (trim msg).isEmpty = true
  · have h0 : blockDataOf msg = [] :=
      trim_nil_blockData msg (List.isEmpty_iff.mp ht)
    simp [ht, h0]
  · have h1 : (blockHeader (splitNlAll msg)).1 = blockEventName msg := by
      rw [blockHeader_eq]; rfl
    have h2 : (blockHeader (splitNlAll msg)).2 = blockDataOf msg := by
      rw [blockHeader_eq]; rfl
    simp [ht, h1, h2]

/-- Dispatch only looks at the parse result of the payload. -/
theorem dispatch_congr (parse : List Char → Option Json) (j : Json)
    (et ds : List Char) (h : parse ds = some j) :
    dispatch parse et ds = dispatch (fun _ => some j) et ds := by
  unfold dispatch
  rw [h]

/-- The trailing segment kept by the newline split never contains a
newline. -/
theorem splitNlP_snd_no_nl (s : List Char) :
    containsSub ['\n'] (splitNlP s).2 = false := by
  induction s with
  | nil => rfl
  | cons x xs ih =>
    by_cases hx : x = '\n'
    · subst hx
      rw [show splitNlP ('\n' :: xs) =
          ([] :: (splitNlP xs).1, (splitNlP xs).2) from by simp [splitNlP]]
      exact ih
    · rw [show splitNlP (x :: xs) = consFirst x (splitNlP xs) from by
        simp [splitNlP, hx]]
      rcases hA : splitNlP xs with ⟨A1, A2⟩
      rw [hA] at ih
      rcases A1 with _ | ⟨s1, ss⟩
      · simp only [consFirst]
        have e : containsSub ['\n'] (x :: A2) =
            (hasPref ['\n'] (x :: A2) || containsSub ['\n'] A2) := rfl
        have hx2 : ¬ ('\n' = x) := fun hh => hx hh.symm
        rw [e, ih]
        simp [hasPref, hx2]
      · simp only [consFirst]
        exact ih

/-- The trailing segment kept by the double-newline split never contains
the double-newline delimiter. -/
theorem split2P_snd_no_nlnl (s : List Char) :
    containsSub ['\n', '\n'] (split2P s).2 = false := by
  induction s using split2P.induct with
  | case1 => rfl
  | case2 x => simp [containsSub, hasPref]
  | case3 x y xs h ih =>
    simp only [Bool.and_eq_true, decide_eq_true_eq] at h
    obtain ⟨hx, hy⟩ := h
    subst hx; subst hy
    rw [show split2P ('\n' :: '\n' :: xs) =
        ([] :: (split2P xs).1, (split2P xs).2) from by simp [split2P]]
    exact ih
  | case4 x y xs h ih =>
    rw [show split2P (x :: y :: xs) = consFirst x (split2P (y :: xs)) from by
      rw [split2P, if_neg h]]
    rcases hA : split2P (y :: xs) with ⟨A1, A2⟩
    rw [hA] at ih
    rcases A1 with _ | ⟨s1, ss⟩
    · have hA2 : A2 = y :: xs := by
        have h0 := split2P_nil_fst (y :: xs)
        rw [hA] at h0
        simpa using h0 rfl
      have hxy : ¬(x = '\n' ∧ y = '\n') := by simpa using h
      have ht : containsSub ['\n', '\n'] (y :: xs) = false := by
        rw [← hA2]; exact ih
      simp only [consFirst, hA2]
      have hpf : hasPref ['\n', '\n'] (x :: y :: xs) = false := by
        by_cases hx : x = '\n'
        · have hy : ¬ y = '\n' := fun hy => hxy ⟨hx, hy⟩
          have hy2 : ¬ ('\n' = y) := fun hh => hy hh.symm
          simp [hasPref, hy2]
        · have hx2 : ¬ ('\n' = x) := fun hh => hx hh.symm
          simp [hasPref, hx2]
      have e : containsSub ['\n', '\n'] (x :: y :: xs) =
          (hasPref ['\n', '\n'] (x :: y :: xs) ||
            containsSub ['\n', '\n'] (y :: xs)) := rfl
      rw [e, hpf, ht]
      rfl
    · simp only [consFirst]
      exact ih

/-- Any property preserved by the trailing segment of the splitter holds
for the buffer after every run of the decoding loop. -/
theorem runDec_buffer {E : Type}
    (split : List Char → List (List Char) × List Char)
    (frame : List Char → Option E) (P : List Char → Prop)
    (H : ∀ s, P ((split s).2)) :
    ∀ (cs : List (List Nat)) (σ : DecState), P σ.buffer →
      P ((runDec split frame σ cs).2).buffer := by
  intro cs
  induction cs with
  | nil => intro σ h; exact h
  | cons c cs ih => intro σ h; exact ih _ (H _)

/-- C5 — Buffer invariant: for both grammars and every sequence of incoming
chunks, after the decoding loop has consumed the chunks, the leftover
buffer contains no occurrence of the frame delimiter (a newline for the
line grammar, a blank line for the block grammar), hence it holds at most
one incomplete trailing frame and never a complete unprocessed frame. -/
theorem C5_buffer_invariant (parseL parseB : List Char → Option Json)
    (chunks : List (List Nat)) :
    containsSub (toL "\n")
        ((runDec splitNlP (lineFrame parseL) ⟨[], []⟩ chunks).2).buffer =
      false ∧
    containsSub (toL "\n\n")
        ((runDec split2P (blockFrame parseB) ⟨[], []⟩ chunks).2).buffer =
      false := by
  constructor
  · rw [show toL "\n" = ['\n'] from rfl]
    exact runDec_buffer splitNlP (lineFrame parseL)
      (fun b => containsSub ['\n'] b = false)
      splitNlP_snd_no_nl chunks ⟨[], []⟩ rfl
  · rw [show toL "\n\n" = ['\n', '\n'] from rfl]
    exact runDec_buffer split2P (blockFrame parseB)
      (fun b => containsSub ['\n', '\n'] b = false)
      split2P_snd_no_nlnl chunks ⟨[], []⟩ rfl

/-- C2 counterexample: in the line grammar the literal terminal line
yields no event at all (the decode of a lone terminal line is empty) and
decoding continues past it (a frame after the marker still yields its
event); in the block grammar a done block yields a done event but frames
after it are still decoded (and a final synthetic done follows). -/
theorem C2_counterexample :
    chatStream jparse [enc "data: [DONE]\n"] = [] ∧
    chatStream jparse [enc "data: [DONE]\ndata: 1\n"] = [Json.num 1] ∧
    sendCharacterMessageStream jparse
        [enc "event: done\ndata: 1\n\nevent: chunk\ndata: 1\n\n"] =
      [BEvent.done, BEvent.chunk none none, BEvent.done] :=
  ⟨rfl, rfl, rfl⟩

/-- C2 (amended) — Terminal marker behaviour: in the line grammar a
`"data: [DONE]"` line is silently skipped (it yields no event) and
decoding continues, so the events are those of the remaining lines; in the
block grammar a done block (with a parseable payload) yields one done
event but is not terminal: the frames after it still yield their
events. -/
theorem C2_amended_terminal_markers :
    (∀ (parse : List Char → Option Json) (line : List Char),
      containsSub (toL "[DONE]") line = true → lineFrame parse line = none) ∧
    (∀ (parse : List Char → Option Json) (pre post : List (List Char)),
      lineEvents parse (pre ++ toL "data: [DONE]" :: post) =
        lineEvents parse (pre ++ post)) ∧
    (∀ (parse : List Char → Option Json) (j : Json)
        (pre post : List (List Char)), parse (toL "1") = some j →
      blockEvents parse (pre ++ toL "event: done\ndata: 1" :: post) =
        blockEvents parse pre ++ BEvent.done :: blockEvents parse post) := by
  refine ⟨?_, ?_, ?_⟩
  · intro parse line h
    simp [lineFrame, h]
  · intro parse pre post
    unfold lineEvents
    rw [List.filterMap_append, List.filterMap_append, List.filterMap_cons,
      show lineFrame parse (toL "data: [DONE]") = none from rfl]
  · intro parse j pre post h
    unfold blockEvents
    rw [List.filterMap_append, List.filterMap_cons,
      show blockFrame parse (toL "event: done\ndata: 1") =
        dispatch parse (toL "done") (toL "1") from rfl,
      dispatch_congr parse j _ _ h]
    rfl

/-- C2 witness: the block conjunct of the amended statement evaluated with
the concrete parse function on a lone done block. -/
theorem C2_amended_terminal_markers_witness :
    jparse (toL "1") = some (Json.num 1) ∧
    blockEvents jparse ([] ++ toL "event: done\ndata: 1" :: []) =
      blockEvents jparse [] ++ BEvent.done :: blockEvents jparse [] :=
  ⟨rfl, C2_amended_terminal_markers.2.2 jparse (Json.num 1) [] [] rfl⟩

/-- C3 counterexample: a stream whose only frame is an explicit done block
produces two done events — the explicit one and the unconditional
synthetic one at stream end — refuting the claim that no additional done
is produced when an explicit one was seen. -/
theorem C3_counterexample :
    sendCharacterMessageStream jparse [enc "event: done\ndata: 1\n\n"] =
      [BEvent.done, BEvent.done] := rfl

/-- C3 (amended) — Synthetic terminal event: the block-grammar decoder
unconditionally appends one synthetic done event at natural stream end,
whether or not an explicit done event was seen; the event sequence always
ends with done. -/
theorem C3_amended_synthetic_done (parse : List Char → Option Json)
    (chunks : List (List Nat)) :
    (sendCharacterMessageStream parse chunks).getLast? = some BEvent.done := by
  unfold sendCharacterMessageStream
  exact List.getLast?_concat _

/-- C4 — Parse-failure leniency: a complete frame whose payload fails to
parse yields zero events and leaves the events of all frames before and
after it unchanged, in both grammars (the decoder is a total function, so
no exception escapes); concretely, a malformed line followed by a valid
one still yields the valid line's event. -/
theorem C4_parse_failure_leniency :
    (∀ (parse : List Char → Option Json) (bad : List Char)
        (pre post : List (List Char)), parse bad = none →
      lineEvents parse (pre ++ (toL "data: " ++ bad) :: post) =
        lineEvents parse (pre ++ post)) ∧
    (∀ (parse : List Char → Option Json) (msg : List Char)
        (pre post : List (List Char)), parse (blockDataOf msg) = none →
      blockEvents parse (pre ++ msg :: post) =
        blockEvents parse (pre ++ post)) ∧
    chatStream jparse [enc "data: nope\ndata: 1\n"] = [Json.num 1] := by
  refine ⟨?_, ?_, rfl⟩
  · intro parse bad pre post h
    have h0 : lineFrame parse (toL "data: " ++ bad) = none := by
      unfold lineFrame
      cases hc : containsSub (toL "[DONE]") (toL "data: " ++ bad) with
      | true => simp [hc]
      | false =>
        have hdrop : (toL "data: " ++ bad).drop 6 = bad := by
          rw [show (6 : Nat) = (toL "data: ").length from rfl, List.drop_left]
        simp [hc, hasPref_self_append, hdrop, h]
    unfold lineEvents
    rw [List.filterMap_append, List.filterMap_append, List.filterMap_cons, h0]
  · intro parse msg pre post h
    have h0 : blockFrame parse msg = none := by
      rw [blockFrame_eq_spec]
      unfold blockFrameSpec
      by_cases he : (blockDataOf msg).isEmpty = true
      · simp [he]
      · simp only [he, if_false]
        unfold dispatch
        rw [h]
        rfl
    unfold blockEvents
    rw [List.filterMap_append, List.filterMap_append, List.filterMap_cons, h0]

/-- C4 witness: the line conjunct evaluated with the concrete parse
function on a malformed payload between two valid frames. -/
theorem C4_parse_failure_leniency_witness :
    jparse (toL "nope") = none ∧
    lineEvents jparse
        ([toL "data: 1"] ++ (toL "data: " ++ toL "nope") :: [toL "data: 2"]) =
      lineEvents jparse ([toL "data: 1"] ++ [toL "data: 2"]) :=
  ⟨rfl, C4_parse_failure_leniency.1 jparse (toL "nope") [toL "data: 1"]
    [toL "data: 2"] rfl⟩

/-- C6 counterexample: after an error block the decoder still yields the
events of subsequent frames (here a chunk event) and the trailing
synthetic done, so the error event is not terminal. -/
theorem C6_counterexample :
    sendCharacterMessageStream jparse
        [enc "event: error\ndata: 1\n\nevent: chunk\ndata: 1\n\n"] =
      [BEvent.error (Json.str (toL "Unknown error")), BEvent.chunk none none,
        BEvent.done] := rfl

/-- C6 (amended) — In-stream error events: an error block (with a
parseable, non-null payload) yields one error event but is not terminal:
the frames before and after it yield their events unchanged. -/
theorem C6_amended_error_not_terminal (parse : List Char → Option Json)
    (pre post : List (List Char)) (h : parse (toL "1") = some (Json.num 1)) :
    blockEvents parse (pre ++ toL "event: error\ndata: 1" :: post) =
      blockEvents parse pre ++
        BEvent.error (Json.str (toL "Unknown error")) ::
          blockEvents parse post := by
  unfold blockEvents
  rw [List.filterMap_append, List.filterMap_cons,
    show blockFrame parse (toL "event: error\ndata: 1") =
      dispatch parse (toL "error") (toL "1") from rfl,
    dispatch_congr parse (Json.num 1) _ _ h]
  rfl

/-- C6 witness: the amended statement evaluated with the concrete parse
function and empty surrounding frame lists. -/
theorem C6_amended_error_not_terminal_witness :
    jparse (toL "1") = some (Json.num 1) ∧
    blockEvents jparse ([] ++ toL "event: error\ndata: 1" :: []) =
      blockEvents jparse [] ++
        BEvent.error (Json.str (toL "Unknown error")) ::
          blockEvents jparse [] :=
  ⟨rfl, C6_amended_error_not_terminal jparse [] [] rfl⟩

/-- C7 counterexample: on the empty stream the block-grammar decoder does
not yield zero events — it yields exactly the synthetic done event. -/
theorem C7_counterexample :
    sendCharacterMessageStream jparse [] = [BEvent.done] ∧
    sendCharacterMessageStream jparse [] ≠ [] := by
  constructor
  · rfl
  · rw [show sendCharacterMessageStream jparse [] = [BEvent.done] from rfl]
    simp

/-- C7 (amended) — Empty stream: given zero chunks, the line-grammar
decoders yield zero events and the block-grammar decoder yields exactly
the single synthetic done event; all three terminate cleanly (they are
total functions). -/
theorem C7_amended_empty_stream (parse : List Char → Option Json) :
    chatStream parse [] = [] ∧ chatWithAgentStream parse [] = [] ∧
      sendCharacterMessageStream parse [] = [BEvent.done] :=
  ⟨rfl, rfl, rfl⟩

/-- C8 — Block-grammar frame mapping: the source block-frame processing
(fold over the lines, then parse, then the switch) coincides with the
specification reading: the event name is the last `"event: "` line
(default `"message"`), the payload is the in-order concatenation of the
`"data: "` suffixes, parsed as JSON only after concatenation, and the
resulting event carries the fields extracted from the parsed payload. -/
theorem C8_block_frame_mapping (parse : List Char → Option Json)
    (msg : List Char) : blockFrame parse msg = blockFrameSpec parse msg :=
  blockFrame_eq_spec parse msg

/-- C9 — The `"[DONE]"` substring filter: any line whose text contains
`"[DONE]"` anywhere yields no event, even when its payload is valid JSON
that merely contains those characters (the concrete conjuncts exhibit a
parseable JSON string payload that is silently dropped by both
line-grammar decoders). -/
theorem C9_done_substring_filter :
    (∀ (parse : List Char → Option Json) (line : List Char),
      containsSub (toL "[DONE]") line = true → lineFrame parse line = none) ∧
    jparse (toL "\"[DONE]\"") = some (Json.str (toL "[DONE]")) ∧
    chatStream jparse [enc "data: \"[DONE]\"\n"] = [] ∧
    chatWithAgentStream jparse [enc "data: \"[DONE]\"\n"] = [] := by
  refine ⟨?_, rfl, rfl, rfl⟩
  intro parse line h
  simp [lineFrame, h]

/-- C9 witness: the filter evaluated on a line whose valid-JSON payload
contains the marker. -/
theorem C9_done_substring_filter_witness :
    containsSub (toL "[DONE]") (toL "data: \"[DONE]\"") = true ∧
    lineFrame jparse (toL "data: \"[DONE]\"") = none :=
  ⟨rfl, C9_done_substring_filter.1 jparse (toL "data: \"[DONE]\"") rfl⟩

/-- C10 — Data-less blocks yield nothing: a block whose concatenated data
payload is empty (in particular one with no `"data: "` line at all)
produces no event regardless of its event name; concretely, blocks
consisting only of `"event: done"` or `"event: error"` are silently
skipped. -/
theorem C10_dataless_blocks :
    (∀ (parse : List Char → Option Json) (msg : List Char),
      blockDataOf msg = [] → blockFrame parse msg = none) ∧
    (∀ parse : List Char → Option Json,
      blockFrame parse (toL "event: done") = none) ∧
    (∀ parse : List Char → Option Json,
      blockFrame parse (toL "event: error") = none) := by
  refine ⟨?_, fun parse => rfl, fun parse => rfl⟩
  intro parse msg h
  rw [blockFrame_eq_spec]
  unfold blockFrameSpec
  simp [h]

/-- C10 witness: a done-only block has an empty payload and yields no
event. -/
theorem C10_dataless_blocks_witness :
    blockDataOf (toL "event: done") = [] ∧
    blockFrame jparse (toL "event: done") = none :=
  ⟨rfl, C10_dataless_blocks.1 jparse (toL "event: done") rfl⟩

end Eliza
